import Mathlib

/-!
Verification of the `backend-ks` service (`src/main.py`), a FastAPI app with
two endpoints: `POST /calculate/` (concurrent vs. sequential delayed squaring)
and `POST /appeal/` (validate a citizen appeal and persist it as a JSON file).

Modelling conventions of this shallow embedding:
* Python `float` values are modelled as exact rationals `ℚ`; `number ** 2`
  becomes exact squaring.
* Wall-clock measurements (`perf_counter()` differences) are inherently
  nondeterministic, so they enter the model as explicit parameters; the
  idealized cooperative scheduler of section `Sched` gives them semantics
  for the timing claims.
* Python strings are `List Char` (Python strings are sequences of Unicode
  code points, as is `List Char`).
* The regex `[А-ЯЁ][а-яё]+` used by the name validators is embedded as a
  regular-expression AST with the standard language semantics and an
  executable Brzozowski-derivative matcher, proved equivalent.
-/

namespace BackendKS

/-! ### Rounding: Python's `round(x, 2)` (banker's rounding, idealized over ℚ) -/

/-- Round a rational to the nearest integer, ties to even
(the rounding mode of Python's built-in `round`). -/
def roundHalfEven (q : ℚ) : ℤ :=
  let f : ℤ := ⌊q⌋
  if q - f < 1/2 then f
  else if (1:ℚ)/2 < q - f then f + 1
  else if f % 2 = 0 then f else f + 1

/-- Python's `round(x, 2)`: round to 2 decimal places. -/
def pythonRound2 (q : ℚ) : ℚ := (roundHalfEven (q * 100) : ℚ) / 100

/-! ### Data model of the `/calculate/` endpoint (`src/main.py` lines 12-36) -/

/-- `ResultItem` (src/main.py lines 16-20). -/
structure ResultItem where
  number : ℚ
  square : ℚ
  delay : ℚ
  time : ℚ
  deriving DecidableEq

/-- `CalculateResponse` (src/main.py lines 22-25). -/
structure CalculateResponse where
  results : List ResultItem
  total_time : ℚ
  parallel_faster_than_sequential : Bool
  deriving DecidableEq

/-- `square_with_delay` (src/main.py lines 27-36).  The coroutine sleeps for
`delay` and measures its own elapsed time `end - start`; that measured
elapsed time is the parameter `elapsed`. -/
def square_with_delay (number delay elapsed : ℚ) : ResultItem :=
  { number := number
    square := number ^ 2
    delay := delay
    time := pythonRound2 elapsed }

/-- The list of `ResultItem`s produced by one run over `zip numbers delays`
(`asyncio.gather` keeps input order; the `for` loop of the sequential rerun
produces the same items in the same order).  `itemElapsed i` is the measured
elapsed time of the `i`-th task. -/
def runItems (numbers delays : List ℚ) (itemElapsed : ℕ → ℚ) : List ResultItem :=
  (numbers.zip delays).enum.map (fun p => square_with_delay p.2.1 p.2.2 (itemElapsed p.1))

/-- The `calculate` handler (src/main.py lines 113-129).  Measured wall-clock
quantities are parameters: `parItemElapsed i` / `seqItemElapsed i` are the
per-item elapsed times observed inside `square_with_delay` during the
concurrent run and the sequential rerun, `parallelElapsed` and `seqElapsed`
the two overall wall-clock times.  The sequential rerun's items are computed
and discarded, exactly as in the source. -/
def calculate (numbers delays : List ℚ) (parItemElapsed seqItemElapsed : ℕ → ℚ)
    (parallelElapsed seqElapsed : ℚ) : CalculateResponse :=
  let results := runItems numbers delays parItemElapsed
  let _discardedSeqResults := runItems numbers delays seqItemElapsed
  { results := results
    total_time := pythonRound2 parallelElapsed
    parallel_faster_than_sequential := decide (parallelElapsed < seqElapsed) }

/-! ### Idealized cooperative scheduler (semantics of the `asyncio` event loop)

`asyncio.gather` in `calculate` fans out one task per `(number, delay)` pair;
each task's only suspension point is `asyncio.sleep(delay)`, so under the
virtual-time semantics of a single-threaded cooperative event loop task `i`
completes at absolute time `max delays[i] 0` (a non-positive sleep yields
immediately) and `gather` returns when the last one completes.  `runLoop`
simulates the loop: repeatedly advance the clock to the earliest pending
deadline and retire every task whose deadline has passed. -/

/-- The event loop: advance the clock to the earliest pending deadline,
retire all deadlines that are now due, repeat.  `fuel` bounds the number of
passes; `gatherElapsed` supplies enough for all tasks to retire. -/
def runLoop : ℕ → ℚ → List ℚ → ℚ
  | 0, clock, _ => clock
  | _ + 1, clock, [] => clock
  | fuel + 1, clock, d :: ds =>
      let m := ds.foldr min d
      let clock' := max clock m
      runLoop fuel clock' ((d :: ds).filter (fun x => decide (clock' < x)))

/-- Virtual wall-clock time for `asyncio.gather` over one `sleep(d)` task per
delay `d`, all started at time 0. -/
def gatherElapsed (delays : List ℚ) : ℚ :=
  runLoop delays.length 0 (delays.map (fun d => max d 0))

/-- Virtual wall-clock time of the sequential rerun: the `for` loop awaits
each sleep in turn, so the durations add. -/
def seqElapsedModel (delays : List ℚ) : ℚ :=
  (delays.map (fun d => max d 0)).sum

/-- The delays actually awaited by `calculate`: the second components of
`zip numbers delays`. -/
def pairedDelays (numbers delays : List ℚ) : List ℚ :=
  (numbers.zip delays).map Prod.snd

/-! ### Regular expressions

The name validators call `re.fullmatch(r'[А-ЯЁ][а-яё]+', v)`.  We embed the
regex as an AST (character classes, alternation, concatenation, Kleene star;
`x+` is `x x*`), with the standard language semantics `REMatches` and an
executable Brzozowski-derivative matcher `reMatch`, proved equivalent. -/

/-- Regular expressions over `Char`, with character classes as predicates. -/
inductive RE where
  | emptyset : RE
  | eps : RE
  | cls (p : Char → Bool) : RE
  | alt (r1 r2 : RE) : RE
  | cat (r1 r2 : RE) : RE
  | star (r : RE) : RE

/-- Does the regex accept the empty string? -/
def nullable : RE → Bool
  | .emptyset => false
  | .eps => true
  | .cls _ => false
  | .alt r1 r2 => nullable r1 || nullable r2
  | .cat r1 r2 => nullable r1 && nullable r2
  | .star _ => true

/-- Brzozowski derivative of a regex with respect to one character. -/
def deriv : RE → Char → RE
  | .emptyset, _ => .emptyset
  | .eps, _ => .emptyset
  | .cls p, c => if p c then .eps else .emptyset
  | .alt r1 r2, c => .alt (deriv r1 c) (deriv r2 c)
  | .cat r1 r2, c =>
      if nullable r1 then .alt (.cat (deriv r1 c) r2) (deriv r2 c)
      else .cat (deriv r1 c) r2
  | .star r, c => .cat (deriv r c) (.star r)

/-- Executable full match (Python's `re.fullmatch`): derive by every
character, then test nullability. -/
def reMatch (r : RE) (s : List Char) : Bool :=
  nullable (s.foldl deriv r)

/-- The standard language semantics of regular expressions. -/
inductive REMatches : RE → List Char → Prop where
  | eps : REMatches .eps []
  | cls (p : Char → Bool) (c : Char) : p c = true → REMatches (.cls p) [c]
  | altL {r1 r2 : RE} {s : List Char} : REMatches r1 s → REMatches (.alt r1 r2) s
  | altR {r1 r2 : RE} {s : List Char} : REMatches r2 s → REMatches (.alt r1 r2) s
  | cat {r1 r2 : RE} {s1 s2 : List Char} :
      REMatches r1 s1 → REMatches r2 s2 → REMatches (.cat r1 r2) (s1 ++ s2)
  | starNil (r : RE) : REMatches (.star r) []
  | starCons {r : RE} {s1 s2 : List Char} :
      REMatches r s1 → REMatches (.star r) s2 → REMatches (.star r) (s1 ++ s2)

/-- `[А-ЯЁ]`: uppercase Cyrillic А..Я (U+0410..U+042F) or Ё (U+0401). -/
def isUpperCyr (c : Char) : Bool := ('А' ≤ c && c ≤ 'Я') || c = 'Ё'

/-- `[а-яё]`: lowercase Cyrillic а..я (U+0430..U+044F) or ё (U+0451). -/
def isLowerCyr (c : Char) : Bool := ('а' ≤ c && c ≤ 'я') || c = 'ё'

/-- The pattern `[А-ЯЁ][а-яё]+` of the name validators, with `x+` = `x x*`. -/
def namePattern : RE :=
  .cat (.cls isUpperCyr) (.cat (.cls isLowerCyr) (.star (.cls isLowerCyr)))

/-- `validate_last_name` (src/main.py lines 77-82): `re.fullmatch` against
`[А-ЯЁ][а-яё]+`. -/
def validate_last_name (s : List Char) : Bool := reMatch namePattern s

/-- `validate_first_name` (src/main.py lines 84-89): same pattern. -/
def validate_first_name (s : List Char) : Bool := reMatch namePattern s

/-- Acceptance of `last_name`: the `Field(min_length=2, max_length=50)`
constraints (src/main.py lines 52-57) and the custom validator. -/
def lastNameAccepted (s : List Char) : Bool :=
  (2 ≤ s.length && s.length ≤ 50) && validate_last_name s

/-- Acceptance of `first_name`: `Field(min_length=2, max_length=50)`
(src/main.py lines 58-63) and the custom validator. -/
def firstNameAccepted (s : List Char) : Bool :=
  (2 ≤ s.length && s.length ≤ 50) && validate_first_name s

/-! ### Phone validation (`validate_phone`, src/main.py lines 98-104) -/

/-- The character class `\s` of Python's `re` module on `str` patterns:
ASCII whitespace plus the Unicode whitespace code points. -/
def isPyRegexSpace (c : Char) : Bool :=
  c = ' ' || c = '\t' || c = '\n' || c = '\r' || c = '\x0b' || c = '\x0c' ||
  ('\x1c' ≤ c && c ≤ '\x1f') || c = '\x85' || c = '\xa0' || c = '\u1680' ||
  ('\u2000' ≤ c && c ≤ '\u200a') || c = '\u2028' || c = '\u2029' ||
  c = '\u202f' || c = '\u205f' || c = '\u3000'

/-- The class `[\s\-\(\)]` removed by `re.sub` in `validate_phone`. -/
def strippedByPhoneClean (c : Char) : Bool :=
  isPyRegexSpace c || c = '-' || c = '(' || c = ')'

/-- `cleaned = re.sub(r'[\s\-\(\)]', '', v)`. -/
def cleanPhone (s : List Char) : List Char :=
  s.filter (fun c => !strippedByPhoneClean c)

/-- The code-point ranges of the Unicode decimal digits (category `Nd`,
Unicode 14.0.0 — the database of the CPython runtime the service runs on).
Python's `re` matches `\d` on a `str` pattern against exactly these
characters. -/
def ndDigitRanges : List (ℕ × ℕ) :=
  [(48, 57), (1632, 1641), (1776, 1785), (1984, 1993), (2406, 2415),
   (2534, 2543), (2662, 2671), (2790, 2799), (2918, 2927), (3046, 3055),
   (3174, 3183), (3302, 3311), (3430, 3439), (3558, 3567), (3664, 3673),
   (3792, 3801), (3872, 3881), (4160, 4169), (4240, 4249), (6112, 6121),
   (6160, 6169), (6470, 6479), (6608, 6617), (6784, 6793), (6800, 6809),
   (6992, 7001), (7088, 7097), (7232, 7241), (7248, 7257), (42528, 42537),
   (43216, 43225), (43264, 43273), (43472, 43481), (43504, 43513),
   (43600, 43609), (44016, 44025), (65296, 65305), (66720, 66729),
   (68912, 68921), (69734, 69743), (69872, 69881), (69942, 69951),
   (70096, 70105), (70384, 70393), (70736, 70745), (70864, 70873),
   (71248, 71257), (71360, 71369), (71472, 71481), (71904, 71913),
   (72016, 72025), (72784, 72793), (73040, 73049), (73120, 73129),
   (92768, 92777), (92864, 92873), (93008, 93017), (120782, 120831),
   (123200, 123209), (123632, 123641), (125264, 125273), (130032, 130041)]

/-- Python's `\d` on a `str` pattern: any Unicode decimal digit
(category `Nd`). -/
def isPyDigit (c : Char) : Bool :=
  ndDigitRanges.any (fun r => r.1 ≤ c.toNat && c.toNat ≤ r.2)

/-- `validate_phone` (src/main.py lines 98-104): clean the raw value, fail
unless `re.search(r'\d', cleaned)` finds a digit, and return the *cleaned*
string as the field's value. -/
def validate_phone (s : List Char) : Option (List Char) :=
  let cleaned := cleanPhone s
  if cleaned.any isPyDigit then some cleaned else none

/-- Acceptance of `phone`: `Field(min_length=10, max_length=20)` on the raw
input (src/main.py lines 67-72) and the custom validator. -/
def phoneAccepted (s : List Char) : Bool :=
  (10 ≤ s.length && s.length ≤ 20) && (validate_phone s).isSome

/-! ### Birth-date validation (`validate_birth_date`, src/main.py lines 91-96) -/

/-- A Python `datetime.date`: year, month, day. -/
structure PyDate where
  year : ℕ
  month : ℕ
  day : ℕ
  deriving DecidableEq

/-- Python `date` ordering: lexicographic on (year, month, day). -/
def dateLt (a b : PyDate) : Bool :=
  a.year < b.year || (a.year = b.year && (a.month < b.month ||
    (a.month = b.month && a.day < b.day)))

/-- Python `date` ordering `<=`. -/
def dateLe (a b : PyDate) : Bool := dateLt a b || a = b

/-- `validate_birth_date` (src/main.py lines 91-96): reject exactly when
`v > date.today()`, i.e. when `today < v`. -/
def validate_birth_date (v today : PyDate) : Bool := !dateLt today v

/-- Gregorian leap year (as Python's `calendar`/`datetime` use). -/
def isLeapYear (y : ℕ) : Bool := ((y % 4 = 0) && !(y % 100 = 0)) || (y % 400 = 0)

/-- Days in a month of the Gregorian calendar. -/
def daysInMonth (y m : ℕ) : ℕ :=
  if m = 2 then (if isLeapYear y then 29 else 28)
  else if m = 4 || m = 6 || m = 9 || m = 11 then 30
  else 31

/-- Tomorrow: `today + timedelta(days=1)`. -/
def nextDay (d : PyDate) : PyDate :=
  if d.day < daysInMonth d.year d.month then ⟨d.year, d.month, d.day + 1⟩
  else if d.month < 12 then ⟨d.year, d.month + 1, 1⟩
  else ⟨d.year + 1, 1, 1⟩

/-! ### The `Appeal` model and its validation (src/main.py lines 39-104)

Pydantic validates every field of the request body before the handler runs:
for each field the `Field` constraints apply first, then the field's custom
`after` validator; each invalid field contributes one error, in field
declaration order, and the handler runs only when no field erred. -/

/-- The raw `/appeal/` request body after JSON parsing (`birth_date` already
parsed to a date by pydantic's date coercion). -/
structure RawAppeal where
  last_name : List Char
  first_name : List Char
  birth_date : PyDate
  phone : List Char
  email : List Char
  deriving DecidableEq

/-- A validated `Appeal` (src/main.py lines 39-75); `phone` holds the
cleaned value returned by `validate_phone`. -/
structure Appeal where
  last_name : List Char
  first_name : List Char
  birth_date : PyDate
  phone : List Char
  email : List Char
  deriving DecidableEq

/-- One pydantic validation error: the offending field and its message. -/
structure FieldError where
  field : List Char
  msg : List Char
  deriving DecidableEq

/-- `EmailStr` of pydantic, abstracted: one `@` separating a nonempty local
part from a nonempty domain.  (No claim depends on the exact email syntax
class; this stands in for the external `email-validator` library.) -/
def emailValid (s : List Char) : Bool :=
  let lpart := s.takeWhile (fun c => !(c = '@'))
  let rest := s.dropWhile (fun c => !(c = '@'))
  match rest with
  | [] => false
  | _ :: domain => !lpart.isEmpty && !domain.isEmpty && domain.all (fun c => !(c = '@'))

/-- Validation outcome for `last_name`: `Field` length constraints, then
`validate_last_name`; `none` when the field is accepted. -/
def lastNameError (s : List Char) : Option (List Char) :=
  if s.length < 2 then some "String should have at least 2 characters".toList
  else if 50 < s.length then some "String should have at most 50 characters".toList
  else if validate_last_name s then none
  else some "Value error, Фамилия должна содержать только кириллицу и начинаться с заглавной буквы".toList

/-- Validation outcome for `first_name`. -/
def firstNameError (s : List Char) : Option (List Char) :=
  if s.length < 2 then some "String should have at least 2 characters".toList
  else if 50 < s.length then some "String should have at most 50 characters".toList
  else if validate_first_name s then none
  else some "Value error, Имя должно содержать только кириллицу и начинаться с заглавной буквы".toList

/-- Validation outcome for `birth_date`. -/
def birthDateError (v today : PyDate) : Option (List Char) :=
  if validate_birth_date v today then none
  else some "Value error, Дата рождения не может быть в будущем".toList

/-- Validation outcome for `phone`: `Field` length constraints on the raw
value, then `validate_phone`. -/
def phoneError (s : List Char) : Option (List Char) :=
  if s.length < 10 then some "String should have at least 10 characters".toList
  else if 20 < s.length then some "String should have at most 20 characters".toList
  else if (validate_phone s).isSome then none
  else some "Value error, Телефон должен содержать цифры".toList

/-- Validation outcome for `email`. -/
def emailError (s : List Char) : Option (List Char) :=
  if emailValid s then none
  else some "value is not a valid email address".toList

/-- The error entries contributed by one field. -/
def fieldErrorList (field : List Char) (e : Option (List Char)) : List FieldError :=
  match e with
  | none => []
  | some m => [⟨field, m⟩]

/-- All validation errors of a request body, in field declaration order. -/
def appealErrors (raw : RawAppeal) (today : PyDate) : List FieldError :=
  fieldErrorList "last_name".toList (lastNameError raw.last_name) ++
  fieldErrorList "first_name".toList (firstNameError raw.first_name) ++
  fieldErrorList "birth_date".toList (birthDateError raw.birth_date today) ++
  fieldErrorList "phone".toList (phoneError raw.phone) ++
  fieldErrorList "email".toList (emailError raw.email)

/-- Pydantic model construction for `Appeal`: all errors, or the validated
record (with `phone` replaced by the cleaned value the validator returns). -/
def validateAppeal (raw : RawAppeal) (today : PyDate) :
    Except (List FieldError) Appeal :=
  match appealErrors raw today with
  | [] => .ok ⟨raw.last_name, raw.first_name, raw.birth_date,
      cleanPhone raw.phone, raw.email⟩
  | errs => .error errs

/-- Does every field pass its rule? -/
def appealAllValid (raw : RawAppeal) (today : PyDate) : Bool :=
  lastNameAccepted raw.last_name && firstNameAccepted raw.first_name &&
  validate_birth_date raw.birth_date today && phoneAccepted raw.phone &&
  emailValid raw.email

/-- The names of the fields that violate their rules, in declaration order. -/
def invalidFieldNames (raw : RawAppeal) (today : PyDate) : List (List Char) :=
  (if lastNameAccepted raw.last_name then [] else ["last_name".toList]) ++
  (if firstNameAccepted raw.first_name then [] else ["first_name".toList]) ++
  (if validate_birth_date raw.birth_date today then [] else ["birth_date".toList]) ++
  (if phoneAccepted raw.phone then [] else ["phone".toList]) ++
  (if emailValid raw.email then [] else ["email".toList])

/-! ### Filesystem model and JSON serialization (src/main.py lines 131-148) -/

/-- Local filesystem state: existing directories and files (a later write to
the same path shadows the earlier entry). -/
structure FileSystem where
  dirs : List (List Char)
  files : List (List Char × List Char)
  deriving DecidableEq

/-- `os.makedirs(d, exist_ok=True)`. -/
def makedirs (fs : FileSystem) (d : List Char) : FileSystem :=
  if fs.dirs.contains d then fs else { fs with dirs := d :: fs.dirs }

/-- `open(path, 'w')` followed by writing `content`. -/
def writeFile (fs : FileSystem) (path content : List Char) : FileSystem :=
  { fs with files := (path, content) :: fs.files }

/-- The `data` dict after `data['birth_date'] = data['birth_date'].isoformat()`
(all five values are strings). -/
structure AppealData where
  last_name : List Char
  first_name : List Char
  birth_date : List Char
  phone : List Char
  email : List Char
  deriving DecidableEq

/-- A natural number as decimal digits, zero-padded to `width`. -/
def padNum (width n : ℕ) : List Char :=
  let s := (Nat.repr n).toList
  List.replicate (width - s.length) '0' ++ s

/-- Python's `date.isoformat()`: `YYYY-MM-DD`. -/
def isoDate (d : PyDate) : List Char :=
  padNum 4 d.year ++ '-' :: padNum 2 d.month ++ '-' :: padNum 2 d.day

/-- `appeal.model_dump()` followed by the `isoformat` replacement. -/
def appealDump (a : Appeal) : AppealData :=
  ⟨a.last_name, a.first_name, isoDate a.birth_date, a.phone, a.email⟩

/-- Lowercase hex digit. -/
def toHexDigit (n : ℕ) : Char :=
  if n < 10 then Char.ofNat (48 + n) else Char.ofNat (87 + n)

/-- How `json.dump(..., ensure_ascii=False)` writes one character inside a
string literal: escape the quote, the backslash and control characters
(short escapes for `\b \t \n \f \r`, `\u00XY` otherwise), everything else
verbatim. -/
def escapeChar (c : Char) : List Char :=
  if c = '"' then ['\\', '"']
  else if c = '\\' then ['\\', '\\']
  else if c = '\x08' then ['\\', 'b']
  else if c = '\t' then ['\\', 't']
  else if c = '\n' then ['\\', 'n']
  else if c = '\x0c' then ['\\', 'f']
  else if c = '\r' then ['\\', 'r']
  else if c.toNat < 32 then
    ['\\', 'u', '0', '0', toHexDigit (c.toNat / 16), toHexDigit (c.toNat % 16)]
  else [c]

/-- The body of a JSON string literal. -/
def escapeString (s : List Char) : List Char :=
  s.foldr (fun c acc => escapeChar c ++ acc) []

/-- A JSON string literal. -/
def jsonStr (s : List Char) : List Char := '"' :: (escapeString s ++ ['"'])

/-- One member of the object as `json.dump(..., indent=2)` lays it out:
newline, two-space indent, key, `": "`, value. -/
def jsonMember (k v : List Char) : List Char :=
  '\n' :: ' ' :: ' ' :: (jsonStr k ++ ':' :: ' ' :: jsonStr v)

/-- `json.dump(data, f, ensure_ascii=False, indent=2)` for the appeal data:
the members in insertion (= field declaration) order, comma-separated, then
a closing newline and brace. -/
def serializeAppeal (d : AppealData) : List Char :=
  '{' :: (jsonMember "last_name".toList d.last_name ++ ',' ::
    (jsonMember "first_name".toList d.first_name ++ ',' ::
      (jsonMember "birth_date".toList d.birth_date ++ ',' ::
        (jsonMember "phone".toList d.phone ++ ',' ::
          (jsonMember "email".toList d.email ++ ['\n', '}'])))))

/-! ### A JSON reader for the written file -/

/-- Hex digit value. -/
def fromHexDigit (c : Char) : Option ℕ :=
  if '0' ≤ c && c ≤ '9' then some (c.toNat - 48)
  else if 'a' ≤ c && c ≤ 'f' then some (c.toNat - 87)
  else if 'A' ≤ c && c ≤ 'F' then some (c.toNat - 55)
  else none

/-- JSON short escapes. -/
def unescapeChar (c : Char) : Option Char :=
  if c = '"' then some '"'
  else if c = '\\' then some '\\'
  else if c = '/' then some '/'
  else if c = 'b' then some '\x08'
  else if c = 'f' then some '\x0c'
  else if c = 'n' then some '\n'
  else if c = 'r' then some '\r'
  else if c = 't' then some '\t'
  else none

/-- Read a JSON string-literal body (after the opening quote): the decoded
characters and the rest of the input after the closing quote. -/
def parseJsonStringBody : List Char → Option (List Char × List Char)
  | [] => none
  | c :: rest =>
    if c = '"' then some ([], rest)
    else if c = '\\' then
      match rest with
      | [] => none
      | e :: rest2 =>
        if e = 'u' then
          match rest2 with
          | h1 :: h2 :: h3 :: h4 :: rest3 =>
            match fromHexDigit h1, fromHexDigit h2, fromHexDigit h3, fromHexDigit h4 with
            | some v1, some v2, some v3, some v4 =>
              match parseJsonStringBody rest3 with
              | some (s, r) =>
                  some (Char.ofNat (((v1 * 16 + v2) * 16 + v3) * 16 + v4) :: s, r)
              | none => none
            | _, _, _, _ => none
          | _ => none
        else
          match unescapeChar e with
          | some c' =>
            match parseJsonStringBody rest2 with
            | some (s, r) => some (c' :: s, r)
            | none => none
          | none => none
    else
      match parseJsonStringBody rest with
      | some (s, r) => some (c :: s, r)
      | none => none

/-- Drop JSON whitespace. -/
def skipWs : List Char → List Char
  | [] => []
  | c :: rest =>
      if c = ' ' || c = '\t' || c = '\n' || c = '\r' then skipWs rest
      else c :: rest

/-- Consume one expected character. -/
def expectChar (c : Char) : List Char → Option (List Char)
  | [] => none
  | d :: rest => if d = c then some rest else none

/-- Read one `"key": "value"` member (leading whitespace allowed), checking
the key; returns the decoded value and the rest of the input. -/
def parseMember (key : List Char) (l : List Char) : Option (List Char × List Char) :=
  (expectChar '"' (skipWs l)).bind fun r1 =>
  (parseJsonStringBody r1).bind fun kr =>
  if kr.1 = key then
    (expectChar ':' (skipWs kr.2)).bind fun r3 =>
    (expectChar '"' (skipWs r3)).bind fun r4 =>
    parseJsonStringBody r4
  else none

/-- Parse the appeal JSON object written by `create_appeal` back into its
five string fields. -/
def parseAppealJson (l : List Char) : Option AppealData :=
  (expectChar '{' (skipWs l)).bind fun r0 =>
  (parseMember "last_name".toList r0).bind fun p1 =>
  (expectChar ',' (skipWs p1.2)).bind fun r1 =>
  (parseMember "first_name".toList r1).bind fun p2 =>
  (expectChar ',' (skipWs p2.2)).bind fun r2 =>
  (parseMember "birth_date".toList r2).bind fun p3 =>
  (expectChar ',' (skipWs p3.2)).bind fun r3 =>
  (parseMember "phone".toList r3).bind fun p4 =>
  (expectChar ',' (skipWs p4.2)).bind fun r4 =>
  (parseMember "email".toList r4).bind fun p5 =>
  (expectChar '}' (skipWs p5.2)).bind fun r6 =>
  if skipWs r6 = [] then some ⟨p1.1, p2.1, p3.1, p4.1, p5.1⟩ else none

/-! ### The `/appeal/` endpoint (`create_appeal`, src/main.py lines 131-148) -/

/-- The success response body of `create_appeal`. -/
structure AppealResponse where
  message : List Char
  filename : List Char
  data : AppealData
  deriving DecidableEq

/-- `create_appeal` together with the framework's request validation:
pydantic validates the body first and the handler only runs on success,
creating the `appeals` directory, writing the JSON file and echoing the
data.  `ts` is `datetime.now().strftime('%Y%m%d_%H%M%S')`. -/
def create_appeal (raw : RawAppeal) (today : PyDate) (ts : List Char)
    (fs : FileSystem) : FileSystem × Except (List FieldError) AppealResponse :=
  match validateAppeal raw today with
  | .error errs => (fs, .error errs)
  | .ok appeal =>
    let fs1 := makedirs fs "appeals".toList
    let filename := "appeal_".toList ++ ts ++ ".json".toList
    let filepath := "appeals/".toList ++ filename
    let data := appealDump appeal
    let fs2 := writeFile fs1 filepath (serializeAppeal data)
    (fs2, .ok ⟨"Обращение успешно сохранено".toList, filename, data⟩)

end BackendKS

namespace BackendKS

/-! ### Theorems -/

/-! #### Scheduler lemmas -/

theorem foldr_min_mem (l : List ℚ) (d : ℚ) :
    l.foldr min d = d ∨ l.foldr min d ∈ l := by
  induction l with
  | nil => exact Or.inl rfl
  | cons x xs ih =>
      rcases min_cases x (xs.foldr min d) with ⟨h, _⟩ | ⟨h, _⟩
      · exact Or.inr (by simp [h])
      · rcases ih with h' | h'
        · exact Or.inl (by rw [List.foldr_cons, h, h'])
        · exact Or.inr (by rw [List.foldr_cons, h]; exact List.mem_cons_of_mem _ h')

theorem init_le_foldr_max (l : List ℚ) (c : ℚ) : c ≤ l.foldr max c := by
  induction l with
  | nil => exact le_rfl
  | cons x xs ih => exact le_trans ih (le_max_right _ _)

theorem le_foldr_max (l : List ℚ) (c x : ℚ) (h : x ∈ l) : x ≤ l.foldr max c := by
  induction l with
  | nil => cases h
  | cons y ys ih =>
      rcases List.mem_cons.mp h with rfl | h'
      · exact le_max_left _ _
      · exact le_trans (ih h') (le_max_right _ _)

theorem foldr_max_le (l : List ℚ) (c b : ℚ) (hc : c ≤ b) (h : ∀ x ∈ l, x ≤ b) :
    l.foldr max c ≤ b := by
  induction l with
  | nil => exact hc
  | cons x xs ih =>
      exact max_le (h x (List.mem_cons_self _ _))
        (ih (fun y hy => h y (List.mem_cons_of_mem _ hy)))

theorem foldr_max_mem_or (l : List ℚ) (c : ℚ) :
    l.foldr max c = c ∨ l.foldr max c ∈ l := by
  induction l with
  | nil => exact Or.inl rfl
  | cons x xs ih =>
      rcases max_cases x (xs.foldr max c) with ⟨h, _⟩ | ⟨h, _⟩
      · exact Or.inr (by simp [h])
      · rcases ih with h' | h'
        · exact Or.inl (by rw [List.foldr_cons, h, h'])
        · exact Or.inr (by rw [List.foldr_cons, h]; exact List.mem_cons_of_mem _ h')

/-- The event loop finishes at the supremum of the pending deadlines and the
current clock, given enough fuel. -/
theorem runLoop_eq_foldr_max (fuel : ℕ) :
    ∀ (clock : ℚ) (pending : List ℚ), pending.length ≤ fuel →
      runLoop fuel clock pending = pending.foldr max clock := by
  induction fuel with
  | zero =>
      intro clock pending h
      have : pending = [] := List.length_eq_zero.mp (Nat.le_zero.mp h)
      subst this; rfl
  | succ fuel ih =>
      intro clock pending h
      match pending with
      | [] => rfl
      | d :: ds =>
        rw [runLoop]
        set m := ds.foldr min d with hm
        set clock' := max clock m with hclock'
        set p' := (d :: ds).filter (fun x => decide (clock' < x)) with hp'
        have hmmem : m ∈ d :: ds := by
          rcases foldr_min_mem ds d with h' | h'
          · rw [hm, h']; exact List.mem_cons_self _ _
          · exact List.mem_cons_of_mem _ h'
        have hdrop : p'.length < (d :: ds).length := by
          rw [hp']
          refine List.length_filter_lt_length_iff_exists.mpr ⟨m, hmmem, ?_⟩
          simp [hclock']
        have hfuel : p'.length ≤ fuel := by
          have := List.length_cons d ds ▸ h
          omega
        rw [ih clock' p' hfuel]
        -- both sides equal the max of the clock and all the deadlines
        have hM1 : p'.foldr max clock' ≤ (d :: ds).foldr max clock := by
          refine foldr_max_le _ _ _ ?_ ?_
          · refine max_le (init_le_foldr_max _ _) (le_foldr_max _ _ _ hmmem)
          · intro x hx
            exact le_foldr_max _ _ _ (List.mem_of_mem_filter hx)
        have hM2 : (d :: ds).foldr max clock ≤ p'.foldr max clock' := by
          rcases foldr_max_mem_or (d :: ds) clock with h' | h'
          · rw [h']
            exact le_trans (le_max_left _ _) (init_le_foldr_max _ _)
          · by_cases hlt : clock' < (d :: ds).foldr max clock
            · refine le_foldr_max _ _ _ ?_
              rw [hp']
              exact List.mem_filter.mpr ⟨h', by simpa using hlt⟩
            · push_neg at hlt
              exact le_trans hlt (init_le_foldr_max _ _)
        exact le_antisymm hM1 hM2

/-- C9: for the concurrent path, the idealized (zero-overhead) event-loop
wall-clock time of the fan-out over equal-length inputs with non-negative
delays is exactly the largest single delay, not the sum: the resulting
`total_time` rounds `max(delays)`, and `max(delays)` is bounded by the
sequential model's time, which is the sum of the delays. -/
theorem gather_time_is_max (numbers delays : List ℚ) (pe se : ℕ → ℚ) (s : ℚ)
    (hlen : numbers.length = delays.length) (hnn : ∀ d ∈ delays, 0 ≤ d) :
    gatherElapsed (pairedDelays numbers delays) = delays.foldr max 0 ∧
    seqElapsedModel delays = delays.sum ∧
    delays.foldr max 0 ≤ delays.sum ∧
    (calculate numbers delays pe se (gatherElapsed (pairedDelays numbers delays))
      s).total_time = pythonRound2 (delays.foldr max 0) := by
  have hpair : pairedDelays numbers delays = delays := by
    unfold pairedDelays
    exact List.map_snd_zip numbers delays (le_of_eq hlen.symm)
  have hclamp : delays.map (fun d => max d 0) = delays := by
    conv_rhs => rw [← List.map_id delays]
    refine List.map_congr_left ?_
    intro d hd
    exact max_eq_left (hnn d hd)
  have hg : gatherElapsed (pairedDelays numbers delays) = delays.foldr max 0 := by
    rw [hpair]
    unfold gatherElapsed
    rw [hclamp]
    exact runLoop_eq_foldr_max delays.length 0 delays le_rfl
  refine ⟨hg, ?_, ?_, by rw [calculate, hg]⟩
  · unfold seqElapsedModel
    rw [hclamp]
  · refine foldr_max_le _ _ _ ?_ ?_
    · exact List.sum_nonneg hnn
    · intro x hx
      exact List.single_le_sum hnn x hx

/-- Witness for C9 at a concrete input. -/
theorem gather_time_is_max_witness :
    gatherElapsed (pairedDelays [(3:ℚ)] [(2:ℚ)]) = 2 :=
  (gather_time_is_max [(3:ℚ)] [(2:ℚ)] (fun _ => 1) (fun _ => 1) 9
    rfl (by intro d hd; simp at hd; rw [hd]; norm_num)).1.trans
    (by rw [List.foldr_cons, List.foldr_nil]; exact max_eq_left (by norm_num))

/-! #### Regex engine correctness -/

theorem emptyset_not {s : List Char} (h : REMatches .emptyset s) : False := by
  cases h

theorem eps_inv {s : List Char} (h : REMatches .eps s) : s = [] := by
  cases h; rfl

theorem cls_inv {p : Char → Bool} {s : List Char} (h : REMatches (.cls p) s) :
    ∃ c, s = [c] ∧ p c = true := by
  cases h with
  | cls p c hc => exact ⟨c, rfl, hc⟩

theorem alt_inv {r1 r2 : RE} {s : List Char} (h : REMatches (.alt r1 r2) s) :
    REMatches r1 s ∨ REMatches r2 s := by
  cases h with
  | altL h => exact Or.inl h
  | altR h => exact Or.inr h

theorem cat_inv {r1 r2 : RE} {s : List Char} (h : REMatches (.cat r1 r2) s) :
    ∃ s1 s2, s = s1 ++ s2 ∧ REMatches r1 s1 ∧ REMatches r2 s2 := by
  cases h with
  | cat h1 h2 => exact ⟨_, _, rfl, h1, h2⟩

theorem star_inv_aux :
    ∀ {rr : RE} {l : List Char}, REMatches rr l → ∀ {r : RE}, rr = .star r →
      l = [] ∨ ∃ s1 s2, l = s1 ++ s2 ∧ s1 ≠ [] ∧ REMatches r s1 ∧
        REMatches (.star r) s2 := by
  intro rr l h
  induction h with
  | eps => intro r hr; exact RE.noConfusion hr
  | cls p c hc => intro r hr; exact RE.noConfusion hr
  | altL h ih => intro r hr; exact RE.noConfusion hr
  | altR h ih => intro r hr; exact RE.noConfusion hr
  | cat h1 h2 ih1 ih2 => intro r hr; exact RE.noConfusion hr
  | starNil r0 => intro r hr; exact Or.inl rfl
  | @starCons r' s1 s2 h1 h2 ih1 ih2 =>
      intro r hr
      injection hr with hrr
      subst hrr
      by_cases hs : s1 = []
      · subst hs
        simpa using ih2 rfl
      · exact Or.inr ⟨s1, s2, rfl, hs, h1, h2⟩

theorem star_inv {r : RE} {l : List Char} (h : REMatches (.star r) l) :
    l = [] ∨ ∃ s1 s2, l = s1 ++ s2 ∧ s1 ≠ [] ∧ REMatches r s1 ∧
      REMatches (.star r) s2 :=
  star_inv_aux h rfl

theorem nullable_iff (r : RE) : nullable r = true ↔ REMatches r [] := by
  induction r with
  | emptyset =>
      constructor
      · intro h; simp [nullable] at h
      · intro h; exact (emptyset_not h).elim
  | eps =>
      constructor
      · intro _; exact .eps
      · intro _; rfl
  | cls p =>
      constructor
      · intro h; simp [nullable] at h
      · intro h; obtain ⟨c, hc, -⟩ := cls_inv h; exact absurd hc (by simp)
  | alt r1 r2 ih1 ih2 =>
      constructor
      · intro h
        rcases (by simpa [nullable] using h :
            nullable r1 = true ∨ nullable r2 = true) with h' | h'
        · exact .altL (ih1.mp h')
        · exact .altR (ih2.mp h')
      · intro h
        rcases alt_inv h with h' | h'
        · simp [nullable, ih1.mpr h']
        · simp [nullable, ih2.mpr h']
  | cat r1 r2 ih1 ih2 =>
      constructor
      · intro h
        have h' : nullable r1 = true ∧ nullable r2 = true := by
          simpa [nullable] using h
        simpa using REMatches.cat (ih1.mp h'.1) (ih2.mp h'.2)
      · intro h
        obtain ⟨s1, s2, heq, h1, h2⟩ := cat_inv h
        obtain ⟨rfl, rfl⟩ := List.append_eq_nil.mp heq.symm
        simp [nullable, ih1.mpr h1, ih2.mpr h2]
  | star r ih =>
      constructor
      · intro _; exact .starNil r
      · intro _; rfl

theorem deriv_matches (r : RE) (c : Char) :
    ∀ s, REMatches (deriv r c) s ↔ REMatches r (c :: s) := by
  induction r with
  | emptyset =>
      intro s
      simp only [deriv]
      exact ⟨fun h => (emptyset_not h).elim, fun h => (emptyset_not h).elim⟩
  | eps =>
      intro s
      simp only [deriv]
      refine ⟨fun h => (emptyset_not h).elim, fun h => ?_⟩
      exact absurd (eps_inv h) (by simp)
  | cls p =>
      intro s
      simp only [deriv]
      by_cases hp : p c
      · simp only [hp, if_true]
        constructor
        · intro h
          rw [eps_inv h]
          exact .cls p c hp
        · intro h
          obtain ⟨c', hc', -⟩ := cls_inv h
          injection hc' with h1 h2
          subst h2
          exact .eps
      · simp only [hp, if_false]
        constructor
        · intro h; exact (emptyset_not h).elim
        · intro h
          obtain ⟨c', hc', hpc'⟩ := cls_inv h
          have hcc : c = c' := by injection hc'
          rw [← hcc] at hpc'
          exact absurd hpc' hp
  | alt r1 r2 ih1 ih2 =>
      intro s
      simp only [deriv]
      constructor
      · intro h
        rcases alt_inv h with h' | h'
        · exact .altL ((ih1 s).mp h')
        · exact .altR ((ih2 s).mp h')
      · intro h
        rcases alt_inv h with h' | h'
        · exact .altL ((ih1 s).mpr h')
        · exact .altR ((ih2 s).mpr h')
  | cat r1 r2 ih1 ih2 =>
      intro s
      simp only [deriv]
      by_cases hn : nullable r1
      · simp only [hn, if_true]
        constructor
        · intro h
          rcases alt_inv h with h' | h'
          · obtain ⟨s1, s2, rfl, h1, h2⟩ := cat_inv h'
            simpa using REMatches.cat ((ih1 s1).mp h1) h2
          · have h2 := (ih2 s).mp h'
            simpa using REMatches.cat ((nullable_iff r1).mp hn) h2
        · intro h
          obtain ⟨s1, s2, heq, h1, h2⟩ := cat_inv h
          cases s1 with
          | nil =>
              simp only [List.nil_append] at heq
              subst heq
              exact .altR ((ih2 s).mpr h2)
          | cons a s1' =>
              simp only [List.cons_append, List.cons.injEq] at heq
              obtain ⟨rfl, rfl⟩ := heq
              exact .altL (.cat ((ih1 s1').mpr h1) h2)
      · simp only [hn, if_false]
        constructor
        · intro h
          obtain ⟨s1, s2, rfl, h1, h2⟩ := cat_inv h
          simpa using REMatches.cat ((ih1 s1).mp h1) h2
        · intro h
          obtain ⟨s1, s2, heq, h1, h2⟩ := cat_inv h
          cases s1 with
          | nil =>
              exact absurd ((nullable_iff r1).mpr h1) (by simpa using hn)
          | cons a s1' =>
              simp only [List.cons_append, List.cons.injEq] at heq
              obtain ⟨rfl, rfl⟩ := heq
              exact .cat ((ih1 s1').mpr h1) h2
  | star r ih =>
      intro s
      simp only [deriv]
      constructor
      · intro h
        obtain ⟨s1, s2, rfl, h1, h2⟩ := cat_inv h
        simpa using REMatches.starCons ((ih s1).mp h1) h2
      · intro h
        rcases star_inv h with h' | ⟨s1, s2, heq, hne, h1, h2⟩
        · exact absurd h' (by simp)
        · cases s1 with
          | nil => exact absurd rfl hne
          | cons a s1' =>
              simp only [List.cons_append, List.cons.injEq] at heq
              obtain ⟨rfl, rfl⟩ := heq
              exact .cat ((ih s1').mpr h1) h2

/-- The executable derivative matcher agrees with the language semantics. -/
theorem reMatch_iff (r : RE) (s : List Char) :
    reMatch r s = true ↔ REMatches r s := by
  induction s generalizing r with
  | nil => simpa [reMatch] using nullable_iff r
  | cons c cs ih =>
      have hstep : reMatch r (c :: cs) = reMatch (deriv r c) cs := rfl
      rw [hstep, ih]
      exact deriv_matches r c cs

theorem starCls_all :
    ∀ {rr : RE} {l : List Char}, REMatches rr l → ∀ {p : Char → Bool},
      rr = .star (.cls p) → ∀ x ∈ l, p x = true := by
  intro rr l h
  induction h with
  | eps => intro p hr; exact RE.noConfusion hr
  | cls q c hc => intro p hr; exact RE.noConfusion hr
  | altL h ih => intro p hr; exact RE.noConfusion hr
  | altR h ih => intro p hr; exact RE.noConfusion hr
  | cat h1 h2 ih1 ih2 => intro p hr; exact RE.noConfusion hr
  | starNil r0 => intro p hr x hx; exact absurd hx (by simp)
  | @starCons r' s1 s2 h1 h2 ih1 ih2 =>
      intro p hr x hx
      injection hr with hrr
      subst hrr
      rcases List.mem_append.mp hx with hx' | hx'
      · obtain ⟨c, rfl, hc⟩ := cls_inv h1
        rw [List.mem_singleton.mp hx']
        exact hc
      · exact ih2 rfl x hx'

theorem starCls_iff {p : Char → Bool} (s : List Char) :
    REMatches (.star (.cls p)) s ↔ ∀ x ∈ s, p x = true := by
  constructor
  · intro h
    exact starCls_all h rfl
  · intro h
    induction s with
    | nil => exact .starNil _
    | cons c cs ih =>
        have : REMatches (.star (.cls p)) ([c] ++ cs) :=
          .starCons (.cls p c (h c (List.mem_cons_self _ _)))
            (ih (fun x hx => h x (List.mem_cons_of_mem _ hx)))
        simpa using this

/-- Full matches of `[А-ЯЁ][а-яё]+`: exactly one uppercase Cyrillic letter
followed by one or more lowercase Cyrillic letters. -/
theorem namePattern_characterization (s : List Char) :
    reMatch namePattern s = true ↔
      ∃ c t, s = c :: t ∧ isUpperCyr c = true ∧ t ≠ [] ∧
        ∀ x ∈ t, isLowerCyr x = true := by
  rw [reMatch_iff, namePattern]
  constructor
  · intro h
    obtain ⟨s1, s23, rfl, h1, h23⟩ := cat_inv h
    obtain ⟨c, rfl, hc⟩ := cls_inv h1
    obtain ⟨s2, s3, rfl, h2, h3⟩ := cat_inv h23
    obtain ⟨d, rfl, hd⟩ := cls_inv h2
    refine ⟨c, d :: s3, by simp, hc, by simp, ?_⟩
    intro x hx
    rcases List.mem_cons.mp hx with rfl | hx'
    · exact hd
    · exact starCls_all h3 rfl x hx'
  · rintro ⟨c, t, rfl, hc, hne, hall⟩
    match t, hne with
    | d :: t', _ =>
      have h1 : REMatches (.cls isUpperCyr) [c] := .cls _ _ hc
      have h2 : REMatches (.cls isLowerCyr) [d] :=
        .cls _ _ (hall d (List.mem_cons_self _ _))
      have h3 : REMatches (.star (.cls isLowerCyr)) t' :=
        (starCls_iff t').mpr (fun x hx => hall x (List.mem_cons_of_mem _ hx))
      have := REMatches.cat h1 (REMatches.cat h2 h3)
      simpa using this

/-- C3: `last_name` and `first_name` are accepted exactly when the string is
one uppercase Cyrillic letter (А-Я or Ё) followed by one or more lowercase
Cyrillic letters (а-я or ё) and its length lies between 2 and 50; every
other string is rejected on that field. -/
theorem name_fields_accept_iff (s : List Char) :
    (lastNameAccepted s = true ↔
      (∃ c t, s = c :: t ∧ isUpperCyr c = true ∧ t ≠ [] ∧
        ∀ x ∈ t, isLowerCyr x = true) ∧ 2 ≤ s.length ∧ s.length ≤ 50) ∧
    (firstNameAccepted s = true ↔
      (∃ c t, s = c :: t ∧ isUpperCyr c = true ∧ t ≠ [] ∧
        ∀ x ∈ t, isLowerCyr x = true) ∧ 2 ≤ s.length ∧ s.length ≤ 50) := by
  have key : ((2 ≤ s.length && s.length ≤ 50) && reMatch namePattern s) = true ↔
      (∃ c t, s = c :: t ∧ isUpperCyr c = true ∧ t ≠ [] ∧
        ∀ x ∈ t, isLowerCyr x = true) ∧ 2 ≤ s.length ∧ s.length ≤ 50 := by
    rw [Bool.and_eq_true, Bool.and_eq_true, decide_eq_true_eq, decide_eq_true_eq,
      namePattern_characterization]
    tauto
  exact ⟨key, key⟩

theorem runItems_length (numbers delays : List ℚ) (e : ℕ → ℚ) :
    (runItems numbers delays e).length = min numbers.length delays.length := by
  simp [runItems]

theorem runItems_getD (numbers delays : List ℚ) (e : ℕ → ℚ) (i : ℕ)
    (h : i < (runItems numbers delays e).length) :
    (runItems numbers delays e).getD i ⟨0, 0, 0, 0⟩ =
      square_with_delay (numbers.getD i 0) (delays.getD i 0) (e i) := by
  have hn : i < numbers.length := by
    rw [runItems_length] at h
    omega
  have hd : i < delays.length := by
    rw [runItems_length] at h
    omega
  rw [List.getD_eq_getElem _ _ h, List.getD_eq_getElem _ _ hn,
    List.getD_eq_getElem _ _ hd]
  simp only [runItems] at h ⊢
  simp

/-- C1: for equal-length `numbers` and `delays`, the response's `results`
list has the same length as `numbers`, and item `i` carries `numbers[i]`,
its exact square `numbers[i] * numbers[i]`, and `delays[i]`, in input
order (positions read with `getD`, whose default is never used below the
length bound). -/
theorem calculate_results_pointwise (numbers delays : List ℚ)
    (pe se : ℕ → ℚ) (p s : ℚ) (hlen : numbers.length = delays.length) :
    (calculate numbers delays pe se p s).results.length = numbers.length ∧
    ∀ i, i < numbers.length →
      ((calculate numbers delays pe se p s).results.getD i ⟨0, 0, 0, 0⟩).number
          = numbers.getD i 0 ∧
      ((calculate numbers delays pe se p s).results.getD i ⟨0, 0, 0, 0⟩).square
          = numbers.getD i 0 * numbers.getD i 0 ∧
      ((calculate numbers delays pe se p s).results.getD i ⟨0, 0, 0, 0⟩).delay
          = delays.getD i 0 := by
  refine ⟨by simp [calculate, runItems_length, hlen], ?_⟩
  intro i h
  have h2 : i < (runItems numbers delays pe).length := by
    rw [runItems_length]
    omega
  have hcal : (calculate numbers delays pe se p s).results
      = runItems numbers delays pe := rfl
  rw [hcal, runItems_getD _ _ _ _ h2]
  simp [square_with_delay, sq]

/-- Witness for C1 at a concrete input. -/
theorem calculate_results_pointwise_witness :
    ([(3:ℚ), 4].length = [(1:ℚ), 2].length) ∧
    ((calculate [(3:ℚ), 4] [(1:ℚ), 2] (fun _ => 1) (fun _ => 1) 2 3).results.length
        = ([(3:ℚ), 4] : List ℚ).length ∧
     ∀ i, i < ([(3:ℚ), 4] : List ℚ).length →
      (((calculate [(3:ℚ), 4] [(1:ℚ), 2] (fun _ => 1) (fun _ => 1) 2 3).results.getD
          i ⟨0, 0, 0, 0⟩).number = ([(3:ℚ), 4] : List ℚ).getD i 0 ∧
       ((calculate [(3:ℚ), 4] [(1:ℚ), 2] (fun _ => 1) (fun _ => 1) 2 3).results.getD
          i ⟨0, 0, 0, 0⟩).square
          = ([(3:ℚ), 4] : List ℚ).getD i 0 * ([(3:ℚ), 4] : List ℚ).getD i 0 ∧
       ((calculate [(3:ℚ), 4] [(1:ℚ), 2] (fun _ => 1) (fun _ => 1) 2 3).results.getD
          i ⟨0, 0, 0, 0⟩).delay = ([(1:ℚ), 2] : List ℚ).getD i 0)) :=
  ⟨rfl, calculate_results_pointwise [(3:ℚ), 4] [(1:ℚ), 2] (fun _ => 1) (fun _ => 1) 2 3 rfl⟩

/-- C2: the response's `parallel_faster_than_sequential` flag is the strict
comparison of the two unrounded measured times, `total_time` is the parallel
time rounded to 2 decimals, and the per-item `results` are those of the
concurrent run — they do not depend on the sequential rerun's measurements,
whose items are discarded. -/
theorem calculate_response_fields (numbers delays : List ℚ)
    (pe se se' : ℕ → ℚ) (p s : ℚ) :
    ((calculate numbers delays pe se p s).parallel_faster_than_sequential = true ↔
      p < s) ∧
    (calculate numbers delays pe se p s).total_time = pythonRound2 p ∧
    (calculate numbers delays pe se p s).results = runItems numbers delays pe ∧
    (calculate numbers delays pe se p s).results
      = (calculate numbers delays pe se' p s).results := by
  refine ⟨?_, rfl, rfl, rfl⟩
  simp [calculate]

/-- C8: with mismatched input lengths, `zip` silently truncates: the results
list has length `min (len numbers) (len delays)`; in particular an empty
`numbers` or an empty `delays` yields an empty results list. -/
theorem calculate_zip_truncation :
    (∀ (numbers delays : List ℚ) (pe se : ℕ → ℚ) (p s : ℚ),
      (calculate numbers delays pe se p s).results.length
        = min numbers.length delays.length) ∧
    (∀ (delays : List ℚ) (pe se : ℕ → ℚ) (p s : ℚ),
      (calculate [] delays pe se p s).results = []) ∧
    (∀ (numbers : List ℚ) (pe se : ℕ → ℚ) (p s : ℚ),
      (calculate numbers [] pe se p s).results = []) := by
  refine ⟨fun numbers delays pe se p s => ?_, fun delays pe se p s => ?_, fun numbers pe se p s => ?_⟩
  · simpa [calculate] using runItems_length numbers delays pe
  · simp [calculate, runItems]
  · simp [calculate, runItems]

/-! #### Phone and birth-date validation -/

/-- C4: `phone` is accepted exactly when the raw input is 10-20 characters
long and the cleaned string (whitespace, hyphens and parentheses removed)
contains at least one Unicode decimal digit; in particular `"abcdefghij"` is
rejected, while ten fullwidth digits `１` (U+FF11, a non-ASCII `Nd` digit)
are accepted. -/
theorem phone_accept_iff :
    (∀ s : List Char, phoneAccepted s = true ↔
      10 ≤ s.length ∧ s.length ≤ 20 ∧ ∃ c ∈ cleanPhone s, isPyDigit c = true) ∧
    phoneAccepted "abcdefghij".toList = false ∧
    phoneAccepted (List.replicate 10 (Char.ofNat 65297)) = true := by
  refine ⟨?_, by decide, by decide⟩
  intro s
  rw [phoneAccepted, Bool.and_eq_true, Bool.and_eq_true, decide_eq_true_eq,
    decide_eq_true_eq, validate_phone]
  constructor
  · rintro ⟨⟨h1, h2⟩, h3⟩
    refine ⟨h1, h2, ?_⟩
    by_cases hd : (cleanPhone s).any isPyDigit
    · exact List.any_eq_true.mp hd
    · rw [if_neg hd] at h3
      simp at h3
  · rintro ⟨h1, h2, h3⟩
    refine ⟨⟨h1, h2⟩, ?_⟩
    rw [if_pos (List.any_eq_true.mpr h3)]
    rfl

/-- C5: a (parsed) birth date is accepted exactly when it is not later than
the current date (`v <= today` in Python's lexicographic date order), and
tomorrow's date is always rejected. -/
theorem birth_date_accept_iff :
    (∀ v today : PyDate,
      validate_birth_date v today = true ↔ dateLe v today = true) ∧
    (∀ today : PyDate, validate_birth_date (nextDay today) today = false) := by
  constructor
  · intro v today
    obtain ⟨vy, vm, vd⟩ := v
    obtain ⟨ty, tm, td⟩ := today
    simp only [validate_birth_date, dateLe, dateLt, Bool.not_eq_true',
      Bool.or_eq_false_iff, Bool.or_eq_true, Bool.and_eq_true,
      Bool.and_eq_false_iff, decide_eq_true_eq, decide_eq_false_iff_not,
      PyDate.mk.injEq]
    omega
  · intro today
    obtain ⟨ty, tm, td⟩ := today
    have hlt : dateLt ⟨ty, tm, td⟩ (nextDay ⟨ty, tm, td⟩) = true := by
      rw [nextDay]
      by_cases h1 : td < daysInMonth ty tm
      · rw [if_pos h1]
        simp [dateLt]
      · rw [if_neg h1]
        by_cases h2 : tm < 12
        · rw [if_pos h2]
          simp [dateLt, h2]
        · rw [if_neg h2]
          simp [dateLt]
    rw [validate_birth_date, hlt]
    rfl

/-- Witness for C5's acceptance rule and rejection of tomorrow at a concrete
date. -/
theorem birth_date_accept_iff_witness :
    validate_birth_date ⟨1990, 5, 15⟩ ⟨2026, 10, 12⟩ = true ∧
    validate_birth_date (nextDay ⟨2026, 10, 12⟩) ⟨2026, 10, 12⟩ = false :=
  ⟨((birth_date_accept_iff.1 ⟨1990, 5, 15⟩ ⟨2026, 10, 12⟩).mpr (by decide)),
    birth_date_accept_iff.2 ⟨2026, 10, 12⟩⟩

/-! #### JSON serialization round-trip -/

theorem charOfNat_toNat (c : Char) : Char.ofNat c.toNat = c := by
  have hv : c.toNat.isValidChar := c.valid
  unfold Char.ofNat
  rw [dif_pos hv]
  apply Char.eq_of_val_eq
  rcases c with ⟨⟨bv⟩, hval⟩
  show UInt32.mk (BitVec.ofNatLt bv.toNat _) = UInt32.mk bv
  congr 1

theorem fromHex_toHex (n : ℕ) (h : n < 16) :
    fromHexDigit (toHexDigit n) = some n := by
  interval_cases n <;> decide

theorem parseBody_quote (rest : List Char) :
    parseJsonStringBody ('"' :: rest) = some ([], rest) := by
  rw [parseJsonStringBody.eq_def]
  simp

theorem parseBody_raw {c : Char} (rest : List Char) (h1 : ¬ c = '"')
    (h2 : ¬ c = '\\') :
    parseJsonStringBody (c :: rest) =
      match parseJsonStringBody rest with
      | some (s, r) => some (c :: s, r)
      | none => none := by
  rw [parseJsonStringBody.eq_def]
  simp [h1, h2]

theorem parseBody_shortEscape {e c' : Char} (rest : List Char)
    (hu : ¬ e = 'u') (he : unescapeChar e = some c') :
    parseJsonStringBody ('\\' :: e :: rest) =
      match parseJsonStringBody rest with
      | some (s, r) => some (c' :: s, r)
      | none => none := by
  rw [parseJsonStringBody.eq_def]
  simp [hu, he]

theorem parseBody_uEscape {h3 h4 : Char} (rest : List Char) {v3 v4 : ℕ}
    (hh3 : fromHexDigit h3 = some v3) (hh4 : fromHexDigit h4 = some v4) :
    parseJsonStringBody ('\\' :: 'u' :: '0' :: '0' :: h3 :: h4 :: rest) =
      match parseJsonStringBody rest with
      | some (s, r) => some (Char.ofNat (((0 * 16 + 0) * 16 + v3) * 16 + v4) :: s, r)
      | none => none := by
  rw [parseJsonStringBody.eq_def]
  simp [hh3, hh4, show fromHexDigit '0' = some 0 from rfl]

/-- Reading back a serialized string literal body recovers the string. -/
theorem parseJsonStringBody_escape (s rest : List Char) :
    parseJsonStringBody (escapeString s ++ '"' :: rest) = some (s, rest) := by
  induction s with
  | nil =>
      show parseJsonStringBody ([] ++ '"' :: rest) = some ([], rest)
      rw [List.nil_append, parseBody_quote]
  | cons c cs ih =>
      have hes : escapeString (c :: cs) = escapeChar c ++ escapeString cs := rfl
      rw [hes, List.append_assoc, escapeChar]
      split_ifs with h1 h2 h3 h4 h5 h6 h7 h8
      · subst h1
        simp only [List.cons_append, List.nil_append]
        rw [@parseBody_shortEscape '\"' '\"' _ (by decide) (by decide), ih]
      · subst h2
        simp only [List.cons_append, List.nil_append]
        rw [@parseBody_shortEscape '\\' '\\' _ (by decide) (by decide), ih]
      · subst h3
        simp only [List.cons_append, List.nil_append]
        rw [@parseBody_shortEscape 'b' '\x08' _ (by decide) (by decide), ih]
      · subst h4
        simp only [List.cons_append, List.nil_append]
        rw [@parseBody_shortEscape 't' '\t' _ (by decide) (by decide), ih]
      · subst h5
        simp only [List.cons_append, List.nil_append]
        rw [@parseBody_shortEscape 'n' '\n' _ (by decide) (by decide), ih]
      · subst h6
        simp only [List.cons_append, List.nil_append]
        rw [@parseBody_shortEscape 'f' '\x0c' _ (by decide) (by decide), ih]
      · subst h7
        simp only [List.cons_append, List.nil_append]
        rw [@parseBody_shortEscape 'r' '\r' _ (by decide) (by decide), ih]
      · -- the `\u00XY` escape of the remaining control characters
        simp only [List.cons_append, List.nil_append]
        rw [parseBody_uEscape _ (fromHex_toHex (c.toNat / 16) (by omega))
          (fromHex_toHex (c.toNat % 16) (by omega)), ih]
        have hval : ((0 * 16 + 0) * 16 + c.toNat / 16) * 16 + c.toNat % 16
            = c.toNat := by omega
        rw [hval, charOfNat_toNat]
      · -- an unescaped character: it is neither `"` nor `\`
        simp only [List.cons_append, List.nil_append]
        rw [parseBody_raw _ h1 h2, ih]

theorem skipWs_ws {c : Char} (l : List Char)
    (h : (c = ' ' || c = '\t' || c = '\n' || c = '\r') = true) :
    skipWs (c :: l) = skipWs l := by
  simp [skipWs, h]

theorem skipWs_nonws {c : Char} (l : List Char)
    (h : (c = ' ' || c = '\t' || c = '\n' || c = '\r') = false) :
    skipWs (c :: l) = c :: l := by
  simp only [skipWs, h]
  rw [if_neg (by simp [h])]

theorem expectChar_self (c : Char) (l : List Char) :
    expectChar c (c :: l) = some l := by
  simp [expectChar]

/-- Reading back one serialized member recovers the value. -/
theorem parseMember_serialized (key v tail : List Char) :
    parseMember key (jsonMember key v ++ tail) = some (v, tail) := by
  have hnorm : jsonMember key v ++ tail
      = '\n' :: ' ' :: ' ' :: '"' :: (escapeString key ++ '"' ::
          (':' :: ' ' :: '"' :: (escapeString v ++ '"' :: tail))) := by
    simp [jsonMember, jsonStr, List.append_assoc]
  rw [hnorm]
  simp only [parseMember]
  rw [skipWs_ws _ (by decide), skipWs_ws _ (by decide), skipWs_ws _ (by decide),
    skipWs_nonws _ (by decide), expectChar_self]
  simp only [Option.some_bind]
  rw [parseJsonStringBody_escape]
  simp only [Option.some_bind]
  rw [if_pos trivial]
  rw [skipWs_nonws _ (by decide), expectChar_self]
  simp only [Option.some_bind]
  rw [skipWs_ws _ (by decide), skipWs_nonws _ (by decide), expectChar_self]
  simp only [Option.some_bind]
  rw [parseJsonStringBody_escape]

/-- C7 core: parsing the exact JSON text written for an appeal recovers the
serialized record, for every record (escaping included). -/
theorem parseAppealJson_serializeAppeal (d : AppealData) :
    parseAppealJson (serializeAppeal d) = some d := by
  obtain ⟨ln, fn, bd, ph, em⟩ := d
  simp only [serializeAppeal, parseAppealJson]
  rw [skipWs_nonws _ (by decide), expectChar_self]
  simp only [Option.some_bind]
  rw [parseMember_serialized]
  simp only [Option.some_bind]
  rw [skipWs_nonws _ (by decide), expectChar_self]
  simp only [Option.some_bind]
  rw [parseMember_serialized]
  simp only [Option.some_bind]
  rw [skipWs_nonws _ (by decide), expectChar_self]
  simp only [Option.some_bind]
  rw [parseMember_serialized]
  simp only [Option.some_bind]
  rw [skipWs_nonws _ (by decide), expectChar_self]
  simp only [Option.some_bind]
  rw [parseMember_serialized]
  simp only [Option.some_bind]
  rw [skipWs_nonws _ (by decide), expectChar_self]
  simp only [Option.some_bind]
  rw [parseMember_serialized]
  simp only [Option.some_bind]
  rw [skipWs_ws _ (by decide), skipWs_nonws _ (by decide), expectChar_self]
  simp only [Option.some_bind]
  rfl

/-! #### Appeal validation: aggregation over the five fields -/

theorem gateError_none_iff (lo hi : ℕ) (s : List Char) (v : Bool)
    (m1 m2 m3 : List Char) :
    ((if s.length < lo then some m1
      else if hi < s.length then some m2
      else if v then none
      else some m3) = none) ↔ ((lo ≤ s.length && s.length ≤ hi) && v) = true := by
  cases v <;> split_ifs <;> simp_all

theorem lastNameError_none_iff (s : List Char) :
    lastNameError s = none ↔ lastNameAccepted s = true := by
  simp only [lastNameError, lastNameAccepted]
  exact gateError_none_iff 2 50 s _ _ _ _

theorem firstNameError_none_iff (s : List Char) :
    firstNameError s = none ↔ firstNameAccepted s = true := by
  simp only [firstNameError, firstNameAccepted]
  exact gateError_none_iff 2 50 s _ _ _ _

theorem phoneError_none_iff (s : List Char) :
    phoneError s = none ↔ phoneAccepted s = true := by
  simp only [phoneError, phoneAccepted]
  exact gateError_none_iff 10 20 s _ _ _ _

theorem birthDateError_none_iff (v today : PyDate) :
    birthDateError v today = none ↔ validate_birth_date v today = true := by
  cases hv : validate_birth_date v today <;> simp [birthDateError, hv]

theorem emailError_none_iff (s : List Char) :
    emailError s = none ↔ emailValid s = true := by
  cases hv : emailValid s <;> simp [emailError, hv]

theorem fieldErrorList_nil_iff (f : List Char) (e : Option (List Char)) :
    fieldErrorList f e = [] ↔ e = none := by
  cases e <;> simp [fieldErrorList]

theorem fieldErrorList_fields (f : List Char) (e : Option (List Char)) (b : Bool)
    (hb : e = none ↔ b = true) :
    (fieldErrorList f e).map FieldError.field = if b then [] else [f] := by
  cases e with
  | none =>
      have hbt : b = true := hb.mp rfl
      simp [fieldErrorList, hbt]
  | some m =>
      have hbne : ¬ b = true := fun h => Option.noConfusion (hb.mpr h)
      have hbf : b = false := by
        cases b
        · rfl
        · exact absurd rfl hbne
      simp [fieldErrorList, hbf]

/-- The error list names exactly the fields that violate their rules, in
declaration order. -/
theorem appealErrors_fields (raw : RawAppeal) (today : PyDate) :
    (appealErrors raw today).map FieldError.field = invalidFieldNames raw today := by
  rw [appealErrors, invalidFieldNames]
  rw [List.map_append, List.map_append, List.map_append, List.map_append]
  rw [fieldErrorList_fields _ _ _ (lastNameError_none_iff raw.last_name),
    fieldErrorList_fields _ _ _ (firstNameError_none_iff raw.first_name),
    fieldErrorList_fields _ _ _ (birthDateError_none_iff raw.birth_date today),
    fieldErrorList_fields _ _ _ (phoneError_none_iff raw.phone),
    fieldErrorList_fields _ _ _ (emailError_none_iff raw.email)]

theorem appealErrors_nil_iff (raw : RawAppeal) (today : PyDate) :
    appealErrors raw today = [] ↔ appealAllValid raw today = true := by
  rw [appealErrors, appealAllValid]
  simp only [List.append_eq_nil, fieldErrorList_nil_iff, lastNameError_none_iff,
    firstNameError_none_iff, birthDateError_none_iff, phoneError_none_iff,
    emailError_none_iff, Bool.and_eq_true]

theorem makedirs_files (fs : FileSystem) (d : List Char) :
    (makedirs fs d).files = fs.files := by
  rw [makedirs]
  split_ifs <;> rfl

/-- C6: a request with any invalid field fails as a client error naming
exactly the offending fields, before any file I/O — the filesystem is
unchanged; a fully valid request validates and writes the serialized record
(one directory ensured, one file written). -/
theorem create_appeal_all_or_nothing (raw : RawAppeal) (today : PyDate)
    (ts : List Char) (fs : FileSystem) :
    ((create_appeal raw today ts fs).2.isOk = true ↔
      appealAllValid raw today = true) ∧
    (appealAllValid raw today = false →
      (create_appeal raw today ts fs).1 = fs ∧
      ∃ errs, (create_appeal raw today ts fs).2 = .error errs ∧ errs ≠ [] ∧
        errs.map FieldError.field = invalidFieldNames raw today) ∧
    (appealAllValid raw today = true →
      ∃ appeal, validateAppeal raw today = .ok appeal ∧
        (create_appeal raw today ts fs).1 =
          writeFile (makedirs fs "appeals".toList)
            ("appeals/".toList ++ ("appeal_".toList ++ ts ++ ".json".toList))
            (serializeAppeal (appealDump appeal))) := by
  cases h : appealErrors raw today with
  | nil =>
      have hv : appealAllValid raw today = true :=
        (appealErrors_nil_iff raw today).mp h
      have hva : validateAppeal raw today = .ok ⟨raw.last_name, raw.first_name,
          raw.birth_date, cleanPhone raw.phone, raw.email⟩ := by
        rw [validateAppeal, h]
      refine ⟨?_, ?_, ?_⟩
      · simp [create_appeal, hva, hv, Except.isOk, Except.toBool]
      · intro hfalse
        rw [hv] at hfalse
        exact absurd hfalse (by simp)
      · intro _
        exact ⟨_, hva, by simp [create_appeal, hva]⟩
  | cons e es =>
      have hnotnil : appealErrors raw today ≠ [] := by simp [h]
      have hval : appealAllValid raw today = false := by
        cases hb : appealAllValid raw today
        · rfl
        · exact absurd ((appealErrors_nil_iff raw today).mpr hb) hnotnil
      have hva : validateAppeal raw today = .error (e :: es) := by
        rw [validateAppeal, h]
      refine ⟨?_, ?_, ?_⟩
      · simp [create_appeal, hva, hval, Except.isOk, Except.toBool]
      · intro _
        refine ⟨by simp [create_appeal, hva], e :: es,
          by simp [create_appeal, hva], by simp, ?_⟩
        rw [← h]
        exact appealErrors_fields raw today
      · intro ht
        rw [hval] at ht
        exact absurd ht (by simp)

/-- C10: a successful appeal persists and echoes the *cleaned* phone: in
both the written file and the response's `data`, `phone` is the raw input
with whitespace, hyphens and parentheses removed. -/
theorem appeal_phone_is_cleaned (raw : RawAppeal) (today : PyDate)
    (ts : List Char) (fs : FileSystem) (resp : AppealResponse)
    (h : (create_appeal raw today ts fs).2 = .ok resp) :
    resp.data.phone = cleanPhone raw.phone ∧
    (create_appeal raw today ts fs).1.files =
      ("appeals/".toList ++ resp.filename, serializeAppeal resp.data) :: fs.files := by
  cases hv : validateAppeal raw today with
  | error errs =>
      rw [create_appeal, hv] at h
      exact absurd h (by simp)
  | ok appeal =>
      have happ : appeal = ⟨raw.last_name, raw.first_name, raw.birth_date,
          cleanPhone raw.phone, raw.email⟩ := by
        rw [validateAppeal] at hv
        cases herr : appealErrors raw today with
        | nil =>
            rw [herr] at hv
            cases hv
            rfl
        | cons e es =>
            rw [herr] at hv
            cases hv
      rw [create_appeal, hv] at h ⊢
      simp only at h ⊢
      cases h
      subst happ
      refine ⟨rfl, ?_⟩
      simp [writeFile, makedirs_files]

/-- Witness for C10 at a concrete request whose raw phone contains spaces,
hyphens and parentheses. -/
theorem appeal_phone_is_cleaned_witness :
    (AppealResponse.mk "Обращение успешно сохранено".toList
        "appeal_20261012_120000.json".toList
        ⟨"Иванов".toList, "Иван".toList, "1990-05-15".toList,
          "+79161234567".toList, "ivanov@example.com".toList⟩).data.phone
      = cleanPhone "+7 (916) 123-45-67".toList ∧
    (create_appeal
        ⟨"Иванов".toList, "Иван".toList, ⟨1990, 5, 15⟩,
          "+7 (916) 123-45-67".toList, "ivanov@example.com".toList⟩
        ⟨2026, 10, 12⟩ "20261012_120000".toList ⟨[], []⟩).1.files =
      ("appeals/".toList ++ "appeal_20261012_120000.json".toList,
        serializeAppeal ⟨"Иванов".toList, "Иван".toList, "1990-05-15".toList,
          "+79161234567".toList, "ivanov@example.com".toList⟩) :: ([] : List (List Char × List Char)) :=
  appeal_phone_is_cleaned
    ⟨"Иванов".toList, "Иван".toList, ⟨1990, 5, 15⟩,
      "+7 (916) 123-45-67".toList, "ivanov@example.com".toList⟩
    ⟨2026, 10, 12⟩ "20261012_120000".toList ⟨[], []⟩
    (AppealResponse.mk "Обращение успешно сохранено".toList
      "appeal_20261012_120000.json".toList
      ⟨"Иванов".toList, "Иван".toList, "1990-05-15".toList,
        "+79161234567".toList, "ivanov@example.com".toList⟩)
    rfl

/-- C7: for every successful appeal, the JSON text written to the file is
the serialization of the response's `data` (as one filesystem entry), and
parsing it back yields exactly that `data`, whose `birth_date` is the
ISO-8601 rendering of the validated input date. -/
theorem appeal_file_roundtrip (raw : RawAppeal) (today : PyDate)
    (ts : List Char) (fs : FileSystem) (resp : AppealResponse)
    (h : (create_appeal raw today ts fs).2 = .ok resp) :
    parseAppealJson (serializeAppeal resp.data) = some resp.data ∧
    (create_appeal raw today ts fs).1.files =
      ("appeals/".toList ++ resp.filename, serializeAppeal resp.data) :: fs.files ∧
    resp.data.birth_date = isoDate raw.birth_date := by
  cases hv : validateAppeal raw today with
  | error errs =>
      rw [create_appeal, hv] at h
      exact absurd h (by simp)
  | ok appeal =>
      have happ : appeal = ⟨raw.last_name, raw.first_name, raw.birth_date,
          cleanPhone raw.phone, raw.email⟩ := by
        rw [validateAppeal] at hv
        cases herr : appealErrors raw today with
        | nil =>
            rw [herr] at hv
            cases hv
            rfl
        | cons e es =>
            rw [herr] at hv
            cases hv
      rw [create_appeal, hv] at h ⊢
      simp only at h ⊢
      cases h
      subst happ
      refine ⟨parseAppealJson_serializeAppeal _, ?_, rfl⟩
      simp [writeFile, makedirs_files]

/-- Witness for C7 at a concrete valid appeal. -/
theorem appeal_file_roundtrip_witness :
    parseAppealJson (serializeAppeal
      ⟨"Иванов".toList, "Иван".toList, "1990-05-15".toList,
        "+79161234567".toList, "ivanov@example.com".toList⟩) =
      some ⟨"Иванов".toList, "Иван".toList, "1990-05-15".toList,
        "+79161234567".toList, "ivanov@example.com".toList⟩ ∧
    (create_appeal
        ⟨"Иванов".toList, "Иван".toList, ⟨1990, 5, 15⟩,
          "+79161234567".toList, "ivanov@example.com".toList⟩
        ⟨2026, 10, 12⟩ "20261012_120000".toList ⟨[], []⟩).1.files =
      ("appeals/".toList ++ "appeal_20261012_120000.json".toList,
        serializeAppeal ⟨"Иванов".toList, "Иван".toList, "1990-05-15".toList,
          "+79161234567".toList, "ivanov@example.com".toList⟩) :: ([] : List (List Char × List Char)) ∧
    ("1990-05-15".toList : List Char) = isoDate ⟨1990, 5, 15⟩ :=
  appeal_file_roundtrip
    ⟨"Иванов".toList, "Иван".toList, ⟨1990, 5, 15⟩,
      "+79161234567".toList, "ivanov@example.com".toList⟩
    ⟨2026, 10, 12⟩ "20261012_120000".toList ⟨[], []⟩
    (AppealResponse.mk "Обращение успешно сохранено".toList
      "appeal_20261012_120000.json".toList
      ⟨"Иванов".toList, "Иван".toList, "1990-05-15".toList,
        "+79161234567".toList, "ivanov@example.com".toList⟩)
    rfl

end BackendKS
